import Mathlib

/-!
Verification of the rule-based text analyzer of `writing_assistant_app.py`
(functions `get_sentences`, `get_words`, the rule catalogs and `analyze_text`,
source lines 211-363).  Text is modelled as `List Char`.  Python's `re`
character classes and `str.lower`/`str.strip` are modelled on ASCII, the
character set the analyzer is designed for (the spec restricts word tokens to
ASCII letters).
-/

set_option maxRecDepth 100000
set_option maxHeartbeats 1600000

namespace WritingAssistant

/-- ASCII whitespace, modelling Python's regex class for whitespace and the
whitespace set stripped by `str.strip`. -/
def isSpaceChar (c : Char) : Bool :=
  c.toNat == 32 || c.toNat == 9 || c.toNat == 10 ||
    c.toNat == 13 || c.toNat == 11 || c.toNat == 12

/-- ASCII letter (codes 65-90 and 97-122), the class `[a-zA-Z]`. -/
def isAlphaChar (c : Char) : Bool :=
  (65 ≤ c.toNat && c.toNat ≤ 90) || (97 ≤ c.toNat && c.toNat ≤ 122)

/-- ASCII digit, codes 48-57. -/
def isDigitChar (c : Char) : Bool := 48 ≤ c.toNat && c.toNat ≤ 57

/-- Python regex word character (ASCII model): letter, digit or underscore. -/
def isWordChar (c : Char) : Bool := isAlphaChar c || isDigitChar c || c.toNat == 95

/-- ASCII lower-casing of one character, modelling `str.lower` and the
case-folding performed by case-insensitive regex matching. -/
def lowerChar : Char → Char
  | 'A' => 'a'
  | 'B' => 'b'
  | 'C' => 'c'
  | 'D' => 'd'
  | 'E' => 'e'
  | 'F' => 'f'
  | 'G' => 'g'
  | 'H' => 'h'
  | 'I' => 'i'
  | 'J' => 'j'
  | 'K' => 'k'
  | 'L' => 'l'
  | 'M' => 'm'
  | 'N' => 'n'
  | 'O' => 'o'
  | 'P' => 'p'
  | 'Q' => 'q'
  | 'R' => 'r'
  | 'S' => 's'
  | 'T' => 't'
  | 'U' => 'u'
  | 'V' => 'v'
  | 'W' => 'w'
  | 'X' => 'x'
  | 'Y' => 'y'
  | 'Z' => 'z'
  | c => c

/-- Lower-casing of a piece of text. -/
def lowerL (l : List Char) : List Char := l.map lowerChar

/-- Python `str.strip`: drop leading and trailing whitespace. -/
def strip (l : List Char) : List Char :=
  ((l.dropWhile isSpaceChar).reverse.dropWhile isSpaceChar).reverse

/-- Does the current (reversed) piece end with sentence punctuation?  This is
the lookbehind on a period, exclamation or question mark in `get_sentences`. -/
def lastPunct : List Char → Bool
  | [] => false
  | c :: _ => c == '.' || c == '!' || c == '?'

/-- One left-to-right scan of the sentence-splitting regex of `get_sentences`
(split on whitespace runs preceded by sentence punctuation): `sep` records
whether we are inside a separator (a maximal whitespace run following the
punctuation) and `acc` holds the current piece in reverse. -/
def splitSentAux : Bool → List Char → List Char → List (List Char)
  | _, acc, [] => [acc.reverse]
  | true, acc, c :: rest =>
    if isSpaceChar c then splitSentAux true acc rest
    else splitSentAux false [c] rest
  | false, acc, c :: rest =>
    if isSpaceChar c && lastPunct acc then acc.reverse :: splitSentAux true [] rest
    else splitSentAux false (c :: acc) rest

/-- Source function `get_sentences` (lines 211-213): strip the text, split
after sentence punctuation followed by whitespace, strip each piece and drop
the empty ones. -/
def get_sentences (text : List Char) : List (List Char) :=
  ((splitSentAux false [] (strip text)).map strip).filter (fun s => !s.isEmpty)

/-- Maximal runs of word characters; `acc` holds the current run in reverse. -/
def wordRunsAux : List Char → List Char → List (List Char)
  | acc, [] => if acc.isEmpty then [] else [acc.reverse]
  | acc, c :: rest =>
    if isWordChar c then wordRunsAux (c :: acc) rest
    else if acc.isEmpty then wordRunsAux [] rest
    else acc.reverse :: wordRunsAux [] rest

/-- Source function `get_words` (lines 216-217): the all-letter tokens of the
lower-cased text.  The regex matches letter runs delimited by word boundaries,
i.e. exactly those maximal word-character runs that consist purely of letters
(a letter run touching a digit or underscore has no word boundary there and
produces no token). -/
def get_words (text : List Char) : List (List Char) :=
  (wordRunsAux [] (lowerL text)).filter (fun w => w.all isAlphaChar)

/-- Python's substring test (the `in` operator on strings). -/
def containsSub (pat : List Char) : List Char → Bool
  | [] => pat.isEmpty
  | c :: rest => pat.isPrefixOf (c :: rest) || containsSub pat rest

/-- Wordy-phrase table, source lines 232-240 (Python dict insertion order). -/
def WORDY_PHRASES : List (String × String) :=
  [("in order to", "to"), ("due to the fact that", "because"),
   ("at this point in time", "now"), ("in the event that", "if"),
   ("for the purpose of", "to"), ("at the present time", "now"),
   ("in the near future", "soon"), ("has the ability to", "can"),
   ("is able to", "can"), ("a large number of", "many"),
   ("the majority of", "most"), ("in close proximity to", "near"),
   ("take into consideration", "consider"), ("make a decision", "decide")]

/-- Complex-word table, source lines 242-248 (Python dict insertion order). -/
def COMPLEX_WORDS : List (String × String) :=
  [("utilize", "use"), ("implement", "start"), ("facilitate", "help"),
   ("leverage", "use"), ("optimize", "improve"), ("methodology", "method"),
   ("functionality", "feature"), ("subsequently", "then"),
   ("approximately", "about"), ("commence", "begin"), ("terminate", "end"),
   ("endeavor", "try"), ("sufficient", "enough"), ("numerous", "many")]

/-- Weak filler words, source lines 250-251. -/
def WEAK_WORDS : List String :=
  ["very", "really", "quite", "rather", "somewhat",
   "basically", "actually", "literally", "just"]

/-- Hedging phrases, source lines 253-254 (order matters). -/
def HEDGING_WORDS : List String :=
  ["maybe", "perhaps", "possibly", "might", "could be",
   "seems like", "sort of", "kind of", "I think", "I believe"]

/-- Issue type keys used by `analyze_text` (a closed enumeration standing for
the Python string keys). -/
inductive IType
  | passive_voice
  | long_sentence
  | wordy
  | complex_words
  | weak_words
  | hedging
deriving DecidableEq, Repr

/-- Scoring categories (the Python strings Clarity, Conciseness, Style, Tone). -/
inductive Category
  | Clarity
  | Conciseness
  | Style
  | Tone
deriving DecidableEq, Repr

/-- One detected problem, the dict appended to `issues` in `analyze_text`. -/
structure Issue where
  type : IType
  category : Category
  issue : List Char
  original : List Char
  fallback : Option (List Char) := none
deriving DecidableEq, Repr

/-- Worker for `replaceAllCI`.  The loop consumes at least one character per
step, so with the length of the text as fuel the zero-fuel arm (which returns
the text unchanged) is never reached. -/
def replaceAllCIAux (pat rep : List Char) : Nat → List Char → List Char
  | 0, l => l
  | _, [] => []
  | fuel + 1, c :: rest =>
    if pat ≠ [] ∧ lowerL ((c :: rest).take pat.length) = pat then
      rep ++ replaceAllCIAux pat rep fuel ((c :: rest).drop pat.length)
    else c :: replaceAllCIAux pat rep fuel rest

/-- Replacement for a case-insensitive literal pattern, modelling the
`re.sub` call with an escaped pattern and the ignore-case flag on line 295:
every leftmost non-overlapping occurrence is replaced.  The catalog patterns
are lower-case, so an occurrence is a window whose lower-casing equals `pat`. -/
def replaceAllCI (pat rep s : List Char) : List Char :=
  replaceAllCIAux pat rep s.length s

/-- Is the position after a candidate match a word boundary (end of text or a
non-word character)? -/
def boundaryAfter : List Char → Bool
  | [] => true
  | d :: _ => !isWordChar d

/-- Worker for `replaceWordCI`; fueled like `replaceAllCIAux`.  `atB` records
whether the previous character was a word boundary (start of text or a
non-word character). -/
def replaceWordCIAux (pat rep : List Char) : Nat → Bool → List Char → List Char
  | 0, _, l => l
  | _, _, [] => []
  | fuel + 1, atB, c :: rest =>
    if atB = true ∧ pat ≠ [] ∧ lowerL ((c :: rest).take pat.length) = pat ∧
        boundaryAfter ((c :: rest).drop pat.length) = true then
      rep ++ replaceWordCIAux pat rep fuel false ((c :: rest).drop pat.length)
    else c :: replaceWordCIAux pat rep fuel (!isWordChar c) rest

/-- Replacement of a whole word, modelling the `re.sub` call on line 309 whose
pattern is the complex word wrapped in word boundaries, with the ignore-case
flag. -/
def replaceWordCI (pat rep : List Char) (atB : Bool) (s : List Char) : List Char :=
  replaceWordCIAux pat rep s.length atB s

/-- Does the word `pat` occur anywhere in the text at word boundaries
(case-insensitively)?  This mirrors the match condition of `replaceWordCIAux`
step by step. -/
def hasWordOcc (pat : List Char) : Bool → List Char → Bool
  | _, [] => false
  | atB, c :: rest =>
    if atB = true ∧ pat ≠ [] ∧ lowerL ((c :: rest).take pat.length) = pat ∧
        boundaryAfter ((c :: rest).drop pat.length) = true then true
    else hasWordOcc pat (!isWordChar c) rest

/-- Auxiliary verbs of the passive-voice regex on line 265. -/
def AUX_VERBS : List String := ["is", "are", "was", "were", "been", "being"]

/-- Does the passive-voice regex of line 265 match at the current position
(which is assumed to lie at a word boundary)?  The pattern is an auxiliary
verb, then at least one whitespace character, then a word-character run of
length at least three ending in the letters e, d, followed by a word
boundary; matching is case-insensitive. -/
def passiveHere (l : List Char) : Bool :=
  AUX_VERBS.any fun a =>
    let al := a.toList
    lowerL (l.take al.length) == al &&
      (match l.drop al.length with
       | [] => false
       | c :: rest2 =>
         isSpaceChar c &&
           (let w := ((c :: rest2).dropWhile isSpaceChar).takeWhile isWordChar
            decide (3 ≤ w.length) && ['e', 'd'].isSuffixOf (lowerL w)))

/-- Scan of `re.search` for the passive-voice pattern: try every position that
lies at a word boundary.  `atB` records whether the previous character was a
non-word character (or the position is the start of the text). -/
def passiveSearch : Bool → List Char → Bool
  | _, [] => false
  | atB, c :: rest => (atB && passiveHere (c :: rest)) || passiveSearch (!isWordChar c) rest

/-- Does the sentence match the passive-voice heuristic regex of line 265? -/
def passiveMatch (s : List Char) : Bool := passiveSearch true s

/-- Issue record built on lines 266-271. -/
def mkPassiveIssue (s : List Char) : Issue :=
  ⟨IType.passive_voice, Category.Clarity, "Passive voice detected".toList, s, none⟩

/-- Passive-voice pass (lines 263-273).  The `issues` list is empty when the
pass starts, so the break on a length of at least two caps this pass at two
issues; `n` counts the issues this pass has appended so far. -/
def passiveLoop (n : Nat) : List (List Char) → List Issue
  | [] => []
  | s :: rest =>
    if passiveMatch s then
      if 2 ≤ n + 1 then [mkPassiveIssue s]
      else mkPassiveIssue s :: passiveLoop (n + 1) rest
    else passiveLoop n rest

/-- Issue record built on lines 279-284. -/
def mkLongIssue (wc : Nat) (s : List Char) : Issue :=
  ⟨IType.long_sentence, Category.Clarity,
    ("Long sentence (" ++ toString wc ++ " words)").toList, s, none⟩

/-- Long-sentence pass (lines 276-284): flag every sentence with more than 30
word tokens. -/
def longIssues (sentences : List (List Char)) : List Issue :=
  sentences.filterMap fun s =>
    if 30 < (get_words s).length then some (mkLongIssue (get_words s).length s) else none

/-- Issue record built on lines 290-296. -/
def mkWordyIssue (p r : String) (s : List Char) : Issue :=
  ⟨IType.wordy, Category.Conciseness,
    ("Wordy: \"" ++ p ++ "\" → \"" ++ r ++ "\"").toList, s,
    some (replaceAllCI p.toList r.toList s)⟩

/-- Wordy-phrase pass (lines 286-297): for each phrase in table order, flag
the first sentence containing it case-insensitively, then move to the next
phrase. -/
def wordyIssues (sentences : List (List Char)) : List Issue :=
  WORDY_PHRASES.filterMap fun pr =>
    (sentences.find? fun s => containsSub (lowerL pr.1.toList) (lowerL s)).map
      (fun s => mkWordyIssue pr.1 pr.2 s)

/-- Issue record built on lines 304-310. -/
def mkComplexIssue (w simple : String) (s : List Char) : Issue :=
  ⟨IType.complex_words, Category.Style,
    ("Complex: \"" ++ w ++ "\" → \"" ++ simple ++ "\"").toList, s,
    some (replaceWordCI w.toList simple.toList true s)⟩

/-- Complex-word pass (lines 299-312): scan sentences top-to-bottom; in each
sentence pick the first table word (in table order) that occurs as a substring
of the lower-cased sentence and has not been flagged before; the inner break
of the source limits the pass to one issue per sentence, and `found` is the
set of words flagged so far. -/
def complexLoop (found : List String) : List (List Char) → List Issue
  | [] => []
  | s :: rest =>
    match COMPLEX_WORDS.find?
        (fun wr => containsSub wr.1.toList (lowerL s) && !found.contains wr.1) with
    | some wr => mkComplexIssue wr.1 wr.2 s :: complexLoop (wr.1 :: found) rest
    | none => complexLoop found rest

/-- Issue record built on lines 319-324. -/
def mkWeakIssue (s : List Char) : Issue :=
  ⟨IType.weak_words, Category.Style, "Contains filler words".toList, s, none⟩

/-- The sentence-level weak-word test of line 318: some weak word occurs as a
substring of the lower-cased sentence. -/
def sentenceHasWeak (s : List Char) : Bool :=
  WEAK_WORDS.any fun w => containsSub w.toList (lowerL s)

/-- Length of the list built on line 315: the word tokens that are weak
words. -/
def weakTokenCount (words : List (List Char)) : Nat :=
  (words.filter fun w => WEAK_WORDS.any (fun x => x.toList == w)).length

/-- Weak-word pass (lines 314-325): count the word tokens that are weak words;
only if there are more than two, flag the first sentence containing any weak
word as a substring - a single issue for the whole text. -/
def weakIssues (sentences words : List (List Char)) : List Issue :=
  if 2 < weakTokenCount words then
    match sentences.find? sentenceHasWeak with
    | some s => [mkWeakIssue s]
    | none => []
  else []

/-- Issue record built on lines 331-336. -/
def mkHedgingIssue (h : String) (s : List Char) : Issue :=
  ⟨IType.hedging, Category.Tone, ("Hedging: \"" ++ h ++ "\"").toList, s, none⟩

/-- Hedging pass (lines 327-339): take the first hedge in catalog order that
occurs (case-insensitively) in some sentence, flag the first such sentence
and stop the whole pass.  Only this pass produces hedging-typed issues, so
the break condition of line 338 is equivalent to stopping after one issue. -/
def hedgingLoop (sentences : List (List Char)) : List String → List Issue
  | [] => []
  | h :: hs =>
    match sentences.find? (fun s => containsSub (lowerL h.toList) (lowerL s)) with
    | some s => [mkHedgingIssue h s]
    | none => hedgingLoop sentences hs

/-- Hedging pass entry point. -/
def hedgingIssues (sentences : List (List Char)) : List Issue :=
  hedgingLoop sentences HEDGING_WORDS

/-- The full issue list of `analyze_text` in detection-pass order
(lines 261-339). -/
def detect_issues (sentences words : List (List Char)) : List Issue :=
  passiveLoop 0 sentences ++ longIssues sentences ++ wordyIssues sentences ++
    complexLoop [] sentences ++ weakIssues sentences words ++ hedgingIssues sentences

/-- The four category scores plus the overall score (lines 347-353). -/
structure Scores where
  clarity : Nat
  style : Nat
  conciseness : Nat
  tone : Nat
  overall : Nat
deriving DecidableEq, Repr

/-- Word count, sentence count and average sentence length (lines 358-362).
The average is stored in tenths: Python divides the counts to a binary64
double and rounds it to one decimal; both steps are modelled exactly by
`pyRoundQuotTenths`. -/
structure Stats where
  words : Nat
  sentences : Nat
  avg_length_tenths : Nat
deriving DecidableEq, Repr

/-- The dict returned by `analyze_text` (lines 355-363). -/
structure AnalysisReport where
  issues : List Issue
  scores : Scores
  stats : Stats
deriving DecidableEq, Repr

/-- Python's builtin round on an exact quotient of naturals: round half to
even.  Every quotient `analyze_text` rounds (a sum of four scores divided by
four) is exactly representable, so the float detour of the source is lossless
and this is the function the source computes. -/
def roundHalfEven (num den : Nat) : Nat :=
  let q := num / den
  let r := num % den
  if 2 * r < den then q
  else if den < 2 * r then q + 1
  else if q % 2 = 0 then q else q + 1

/-- Floor of the base-two logarithm (zero below two), as a fueled structural
version of the usual halving recursion; the fuel `n` always suffices because
halving reaches one within `n` steps. -/
def natLog2Aux : Nat → Nat → Nat
  | 0, _ => 0
  | fuel + 1, n => if 2 ≤ n then natLog2Aux fuel (n / 2) + 1 else 0

/-- Floor of the base-two logarithm of a natural number. -/
def natLog2 (n : Nat) : Nat := natLog2Aux n n

/-- The exponent of the leading binary digit of the rational `W / S` (both
positive): the unique `E` with `2 ^ E ≤ W / S < 2 ^ (E + 1)`.  Comparing bit
lengths confines `E` to `natLog2 W - natLog2 S` or one less; the comparison
below picks the right one. -/
def floorLog2Quot (W S : Nat) : Int :=
  let e0 : Int := (natLog2 W : Int) - (natLog2 S : Int)
  let ge : Bool :=
    if 0 ≤ e0 then decide (S * 2 ^ e0.toNat ≤ W) else decide (S ≤ W * 2 ^ (-e0).toNat)
  if ge then e0 else e0 - 1

/-- The IEEE binary64 value of the Python quotient `W / S` (for `S ≥ 1`), as
an exact mantissa-exponent pair, value `m * 2 ^ e`: the rational is rounded
to 53 significant bits with round half to even, which is what CPython's
integer true division computes.  The exponent is unbounded here: binary64
overflow or underflow of this quotient would need a text of at least
`2 ^ 971` words, which no input can provide. -/
def doubleQuot (W S : Nat) : Nat × Int :=
  if W = 0 then (0, 0)
  else
    let E := floorLog2Quot W S
    let sig : Int := 52 - E
    let m := if 0 ≤ sig then roundHalfEven (W * 2 ^ sig.toNat) S
             else roundHalfEven W (S * 2 ^ (-sig).toNat)
    (m, E - 52)

/-- Python's builtin round applied with one decimal digit to the binary64
quotient `W / S`, expressed in tenths (line 361).  CPython rounds the exact
binary value of the double to the nearest multiple of one tenth with ties to
even; on the dyadic value `m * 2 ^ e` this is exact integer rounding of
`10 * m * 2 ^ e`. -/
def pyRoundQuotTenths (W S : Nat) : Nat :=
  let p := doubleQuot W S
  if 0 ≤ p.2 then 10 * p.1 * 2 ^ p.2.toNat
  else roundHalfEven (10 * p.1) (2 ^ (-p.2).toNat)

/-- Number of issues carrying a given category (lines 342-345). -/
def categoryCount (c : Category) (issues : List Issue) : Nat :=
  (issues.filter fun i => i.category == c).length

/-- Source function `analyze_text` (lines 257-363).  A category score is
`max(5, 10 - 2 * count)`; the Python value `10 - 2 * count` may be negative,
in which case the max is 5 - exactly as with truncated subtraction on `Nat`.
Scores are computed from the full issue list, the report keeps only the first
eight issues, and the stats come from the full sentence and word lists. -/
def analyze_text (text : List Char) : AnalysisReport :=
  let sentences := get_sentences text
  let words := get_words text
  let issues := detect_issues sentences words
  let clarity := max 5 (10 - 2 * categoryCount Category.Clarity issues)
  let style := max 5 (10 - 2 * categoryCount Category.Style issues)
  let conciseness := max 5 (10 - 2 * categoryCount Category.Conciseness issues)
  let tone := max 5 (10 - 2 * categoryCount Category.Tone issues)
  { issues := issues.take 8
    scores :=
      { clarity := clarity, style := style, conciseness := conciseness, tone := tone,
        overall := roundHalfEven (clarity + style + conciseness + tone) 4 }
    stats :=
      { words := words.length, sentences := sentences.length,
        avg_length_tenths := pyRoundQuotTenths words.length (max sentences.length 1) } }

/-- Characterisation of a hedging issue: it names the first hedge phrase (in
catalog order) that occurs anywhere in the sentence list, and its original is
the first sentence (in list order) containing that phrase. -/
def HedgingIssueSpec (ss : List (List Char)) (i : Issue) : Prop :=
  ∃ h hpre hpost, HEDGING_WORDS = hpre ++ h :: hpost ∧
    (∀ h' ∈ hpre, ∀ s ∈ ss, containsSub (lowerL h'.toList) (lowerL s) = false) ∧
    ∃ spre spost, ss = spre ++ i.original :: spost ∧
      containsSub (lowerL h.toList) (lowerL i.original) = true ∧
      (∀ s ∈ spre, containsSub (lowerL h.toList) (lowerL s) = false) ∧
      i = mkHedgingIssue h i.original

/-- Characterisation of a complex-words issue: the flagged catalog word is
detected by unanchored substring containment, while its fallback substitution
is word-boundary-anchored, so when the word has no boundary-anchored
occurrence the fallback is the sentence unchanged. -/
def ComplexIssueSpec (i : Issue) : Prop :=
  ∃ w r, (w, r) ∈ COMPLEX_WORDS ∧ containsSub w.toList (lowerL i.original) = true ∧
    i.fallback = some (replaceWordCI w.toList r.toList true i.original) ∧
    (hasWordOcc w.toList true i.original = false → i.fallback = some i.original)

/-! Basic lemmas about the character classes. -/

theorem isSpaceChar_lowerChar (c : Char) : isSpaceChar (lowerChar c) = isSpaceChar c := by
  unfold lowerChar
  split <;> first | rfl | decide

theorem lastPunct_lowerChar (c : Char) :
    ((lowerChar c == '.') || (lowerChar c == '!') || (lowerChar c == '?'))
      = ((c == '.') || (c == '!') || (c == '?')) := by
  unfold lowerChar
  split <;> first | rfl | decide

theorem not_isSpaceChar_of_isWordChar (c : Char) (h : isWordChar c = true) :
    isSpaceChar c = false := by
  simp [isWordChar, isAlphaChar, isDigitChar] at h
  simp [isSpaceChar]
  omega

theorem lowerL_cons (c : Char) (l : List Char) :
    lowerL (c :: l) = lowerChar c :: lowerL l := rfl

theorem lastPunct_lowerL (acc : List Char) : lastPunct (lowerL acc) = lastPunct acc := by
  cases acc with
  | nil => rfl
  | cons a rest => exact lastPunct_lowerChar a

/-! Substring containment agrees with the infix relation. -/

theorem containsSub_iff (pat l : List Char) : containsSub pat l = true ↔ pat <:+: l := by
  induction l with
  | nil => simp [containsSub]
  | cons c rest ih =>
    simp only [containsSub, Bool.or_eq_true, List.isPrefixOf_iff_prefix, ih]
    exact (List.infix_cons_iff).symm

/-! Infix manipulation helpers: an infix avoiding a given element cannot cross
that element, and whitespace-free infixes survive stripping. -/

theorem prefix_of_prefix_append_cons {w u v : List Char} {c : Char}
    (hc : c ∉ w) (h : w <+: u ++ c :: v) : w <+: u := by
  induction u generalizing w with
  | nil =>
    rcases List.prefix_cons_iff.mp h with rfl | ⟨t, rfl, _⟩
    · exact List.nil_prefix
    · exact absurd (List.mem_cons_self c t) hc
  | cons a u' ih =>
    cases w with
    | nil => exact List.nil_prefix
    | cons x w' =>
      rw [List.cons_append] at h
      rcases List.cons_prefix_cons.mp h with ⟨rfl, h'⟩
      have hcw : c ∉ w' := fun hm => hc (List.mem_cons_of_mem _ hm)
      exact List.cons_prefix_cons.mpr ⟨rfl, ih hcw h'⟩

theorem infix_of_infix_append_cons {w u v : List Char} {c : Char}
    (hc : c ∉ w) (h : w <:+: u ++ c :: v) : w <:+: u ∨ w <:+: v := by
  induction u generalizing w with
  | nil =>
    rcases List.infix_cons_iff.mp h with hpre | hinf
    · rcases List.prefix_cons_iff.mp hpre with rfl | ⟨t, rfl, _⟩
      · exact Or.inl ⟨[], [], rfl⟩
      · exact absurd (List.mem_cons_self c t) hc
    · exact Or.inr hinf
  | cons a u' ih =>
    rw [List.cons_append] at h
    rcases List.infix_cons_iff.mp h with hpre | hinf
    · rw [← List.cons_append] at hpre
      obtain ⟨t, ht⟩ := prefix_of_prefix_append_cons hc hpre
      exact Or.inl ⟨[], t, by simp [ht]⟩
    · rcases ih hc hinf with h1 | h2
      · exact Or.inl (List.infix_cons h1)
      · exact Or.inr h2

theorem infix_dropWhile_of_no (p : Char → Bool) {w : List Char} (hw : w ≠ [])
    (hall : ∀ x ∈ w, p x = false) :
    ∀ (l : List Char), w <:+: l → w <:+: l.dropWhile p := by
  intro l
  induction l with
  | nil => intro h; simpa using h
  | cons c rest ih =>
    intro h
    rw [List.dropWhile_cons]
    split
    · rename_i hc
      rcases List.infix_cons_iff.mp h with hpre | hinf
      · cases w with
        | nil => exact absurd rfl hw
        | cons x w' =>
          rcases List.cons_prefix_cons.mp hpre with ⟨hxc, _⟩
          have hx := hall x (List.mem_cons_self x w')
          rw [hxc] at hx
          rw [hx] at hc
          exact absurd hc (by simp)
      · exact ih hinf
    · exact h

theorem infix_strip_of_no_space {w : List Char} (hw : w ≠ [])
    (hall : ∀ x ∈ w, isSpaceChar x = false) {l : List Char} (h : w <:+: l) :
    w <:+: strip l := by
  have h1 := infix_dropWhile_of_no isSpaceChar hw hall l h
  have h2 : w.reverse <:+: (l.dropWhile isSpaceChar).reverse := List.reverse_infix.mpr h1
  have hw' : w.reverse ≠ [] := by simpa using hw
  have hall' : ∀ x ∈ w.reverse, isSpaceChar x = false := fun x hx =>
    hall x (List.mem_reverse.mp hx)
  have h3 := infix_dropWhile_of_no isSpaceChar hw' hall' _ h2
  have h4 := List.reverse_infix.mpr h3
  simpa [strip] using h4

theorem strip_infix_self (l : List Char) : strip l <:+: l := by
  have h1 : l.dropWhile isSpaceChar <:+ l := List.dropWhile_suffix _
  have h2 : (l.dropWhile isSpaceChar).reverse.dropWhile isSpaceChar <:+
      (l.dropWhile isSpaceChar).reverse := List.dropWhile_suffix _
  obtain ⟨s, hs⟩ := h1
  obtain ⟨t, ht⟩ := h2
  refine ⟨s, t.reverse, ?_⟩
  have hB : l.dropWhile isSpaceChar = strip l ++ t.reverse := by
    have := congrArg List.reverse ht
    simpa [strip] using this.symm
  calc s ++ strip l ++ t.reverse = s ++ (strip l ++ t.reverse) := List.append_assoc _ _ _
  _ = s ++ l.dropWhile isSpaceChar := by rw [hB]
  _ = l := hs

/-! Structure of the sentence splitter: every produced piece is an infix of
the input, every whitespace-free infix of the input survives into one of the
pieces, and splitting commutes with lower-casing. -/

theorem splitSentAux_infix :
    ∀ (l : List Char) (b : Bool) (acc : List Char), (b = true → acc = []) →
      ∀ p ∈ splitSentAux b acc l, p <:+: acc.reverse ++ l := by
  intro l
  induction l with
  | nil =>
    intro b acc _ p hp
    cases b <;> simp [splitSentAux] at hp <;> exact hp ▸ ⟨[], [], by simp⟩
  | cons c rest ih =>
    intro b acc hinv p hp
    cases b with
    | true =>
      have hacc : acc = [] := hinv rfl
      subst hacc
      rw [splitSentAux] at hp
      by_cases hc : isSpaceChar c = true
      · rw [if_pos hc] at hp
        have h1 := ih true [] (fun _ => rfl) p hp
        simp only [List.reverse_nil, List.nil_append] at h1 ⊢
        exact List.infix_cons h1
      · rw [if_neg hc] at hp
        have h1 := ih false [c] (by simp) p hp
        simpa using h1
    | false =>
      rw [splitSentAux] at hp
      by_cases hg : (isSpaceChar c && lastPunct acc) = true
      · rw [if_pos hg] at hp
        rcases List.mem_cons.mp hp with rfl | hp'
        · exact ⟨[], c :: rest, rfl⟩
        · have h1 := ih true [] (fun _ => rfl) p hp'
          simp only [List.reverse_nil, List.nil_append] at h1
          exact h1.trans ⟨acc.reverse ++ [c], [], by simp⟩
      · rw [if_neg hg] at hp
        have h1 := ih false (c :: acc) (by simp) p hp
        simpa [List.append_assoc] using h1

theorem splitSentAux_covers {w : List Char} (hw : w ≠ [])
    (hsp : ∀ x ∈ w, isSpaceChar x = false) :
    ∀ (l : List Char) (b : Bool) (acc : List Char), (b = true → acc = []) →
      w <:+: acc.reverse ++ l → ∃ p ∈ splitSentAux b acc l, w <:+: p := by
  have hcw : ∀ c : Char, isSpaceChar c = true → c ∉ w := by
    intro c hc hm
    rw [hsp c hm] at hc
    exact absurd hc (by simp)
  intro l
  induction l with
  | nil =>
    intro b acc _ h
    rw [List.append_nil] at h
    cases b <;> exact ⟨acc.reverse, by simp [splitSentAux], h⟩
  | cons c rest ih =>
    intro b acc hinv h
    cases b with
    | true =>
      have hacc : acc = [] := hinv rfl
      subst hacc
      simp only [List.reverse_nil, List.nil_append] at h
      rw [splitSentAux]
      by_cases hc : isSpaceChar c = true
      · rw [if_pos hc]
        have hrest : w <:+: rest := by
          rcases List.infix_cons_iff.mp h with hpre | hinf
          · rcases List.prefix_cons_iff.mp hpre with rfl | ⟨t, rfl, _⟩
            · exact absurd rfl hw
            · exact absurd (List.mem_cons_self c t) (hcw c hc)
          · exact hinf
        exact ih true [] (fun _ => rfl) (by simpa using hrest)
      · rw [if_neg hc]
        exact ih false [c] (by simp) (by simpa using h)
    | false =>
      rw [splitSentAux]
      by_cases hg : (isSpaceChar c && lastPunct acc) = true
      · rw [if_pos hg]
        have hc : isSpaceChar c = true := by
          have := hg
          simp only [Bool.and_eq_true] at this
          exact this.1
        rcases infix_of_infix_append_cons (hcw c hc) h with h1 | h2
        · exact ⟨acc.reverse, List.mem_cons_self _ _, h1⟩
        · obtain ⟨p, hp, hwp⟩ := ih true [] (fun _ => rfl) (by simpa using h2)
          exact ⟨p, List.mem_cons_of_mem _ hp, hwp⟩
      · rw [if_neg hg]
        exact ih false (c :: acc) (by simp) (by simpa [List.append_assoc] using h)

theorem strip_lowerL (l : List Char) : strip (lowerL l) = lowerL (strip l) := by
  have hcomp : isSpaceChar ∘ lowerChar = isSpaceChar := funext isSpaceChar_lowerChar
  unfold strip lowerL
  rw [List.dropWhile_map, hcomp, ← List.map_reverse, List.dropWhile_map, hcomp,
    ← List.map_reverse]

theorem splitSentAux_lowerL :
    ∀ (l : List Char) (b : Bool) (acc : List Char),
      splitSentAux b (lowerL acc) (lowerL l) = (splitSentAux b acc l).map lowerL := by
  intro l
  induction l with
  | nil =>
    intro b acc
    cases b <;> simp [splitSentAux, lowerL]
  | cons c rest ih =>
    intro b acc
    rw [lowerL_cons]
    cases b with
    | true =>
      rw [splitSentAux, splitSentAux, isSpaceChar_lowerChar]
      by_cases hc : isSpaceChar c = true
      · rw [if_pos hc, if_pos hc, ih]
      · rw [if_neg hc, if_neg hc]
        have h1 := ih false [c]
        simpa [lowerL] using h1
    | false =>
      rw [splitSentAux, splitSentAux]
      have hguard : (isSpaceChar (lowerChar c) && lastPunct (lowerL acc))
          = (isSpaceChar c && lastPunct acc) := by
        rw [isSpaceChar_lowerChar, lastPunct_lowerL]
      rw [hguard]
      by_cases hg : (isSpaceChar c && lastPunct acc) = true
      · rw [if_pos hg, if_pos hg, List.map_cons]
        have h1 := ih true []
        rw [show lowerL [] = [] from rfl] at h1
        rw [h1]
        congr 1
        exact (List.map_reverse _ _).symm
      · rw [if_neg hg, if_neg hg]
        have h1 := ih false (c :: acc)
        simpa [lowerL] using h1

theorem isEmpty_lowerL (s : List Char) : (lowerL s).isEmpty = s.isEmpty := by
  cases s <;> rfl

theorem get_sentences_lowerL (t : List Char) :
    get_sentences (lowerL t) = (get_sentences t).map lowerL := by
  unfold get_sentences
  rw [strip_lowerL]
  have h1 := splitSentAux_lowerL (strip t) false []
  rw [show lowerL [] = [] from rfl] at h1
  rw [h1, List.map_map]
  have h2 : strip ∘ lowerL = lowerL ∘ strip := funext fun l => strip_lowerL l
  rw [h2, ← List.map_map, List.filter_map]
  have h3 : ((fun s : List Char => !s.isEmpty) ∘ lowerL) = (fun s : List Char => !s.isEmpty) :=
    funext fun s => by simp [isEmpty_lowerL s]
  rw [h3]

/-! Structure of the word tokenizer. -/

theorem wordRunsAux_mem :
    ∀ (l acc : List Char), (∀ x ∈ acc, isWordChar x = true) →
      ∀ w ∈ wordRunsAux acc l,
        w ≠ [] ∧ (∀ x ∈ w, isWordChar x = true) ∧ w <:+: acc.reverse ++ l := by
  intro l
  induction l with
  | nil =>
    intro acc hacc w hw
    rw [wordRunsAux] at hw
    by_cases he : acc.isEmpty
    · rw [if_pos he] at hw
      exact absurd hw (List.not_mem_nil w)
    · rw [if_neg he] at hw
      rcases List.mem_singleton.mp hw with rfl
      refine ⟨?_, ?_, ⟨[], [], by simp⟩⟩
      · have : acc ≠ [] := by simpa using he
        simpa using this
      · exact fun x hx => hacc x (List.mem_reverse.mp hx)
  | cons c rest ih =>
    intro acc hacc w hw
    rw [wordRunsAux] at hw
    by_cases hc : isWordChar c = true
    · rw [if_pos hc] at hw
      have haccc : ∀ x ∈ c :: acc, isWordChar x = true := by
        intro x hx
        rcases List.mem_cons.mp hx with rfl | hx'
        · exact hc
        · exact hacc x hx'
      have h1 := ih (c :: acc) haccc w hw
      exact ⟨h1.1, h1.2.1, by simpa [List.append_assoc] using h1.2.2⟩
    · rw [if_neg hc] at hw
      by_cases he : acc.isEmpty
      · rw [if_pos he] at hw
        have hacc0 : acc = [] := by simpa using he
        subst hacc0
        have h1 := ih [] (by simp) w hw
        refine ⟨h1.1, h1.2.1, ?_⟩
        have h3 : w <:+: rest := by simpa using h1.2.2
        simpa using List.infix_cons h3
      · rw [if_neg he] at hw
        rcases List.mem_cons.mp hw with rfl | hw'
        · refine ⟨?_, ?_, ⟨[], c :: rest, rfl⟩⟩
          · have : acc ≠ [] := by simpa using he
            simpa using this
          · exact fun x hx => hacc x (List.mem_reverse.mp hx)
        · have h1 := ih [] (by simp) w hw'
          refine ⟨h1.1, h1.2.1, ?_⟩
          have h3 : w <:+: rest := by simpa using h1.2.2
          exact h3.trans ⟨acc.reverse ++ [c], [], by simp⟩

/-- Every word token of a text occurs (as a substring) inside the lower-casing
of one of the text's sentences: tokens contain no whitespace, and the splitter
only ever discards whitespace. -/
theorem token_in_sentence {t w : List Char} (hw : w ∈ get_words t) :
    ∃ s ∈ get_sentences t, w <:+: lowerL s := by
  unfold get_words at hw
  rw [List.mem_filter] at hw
  obtain ⟨hw1, _⟩ := hw
  obtain ⟨hne, hword, hinf⟩ := wordRunsAux_mem (lowerL t) [] (by simp) w hw1
  have hinf' : w <:+: lowerL t := by simpa using hinf
  have hsp : ∀ x ∈ w, isSpaceChar x = false := fun x hx =>
    not_isSpaceChar_of_isWordChar x (hword x hx)
  have h2 : w <:+: strip (lowerL t) := infix_strip_of_no_space hne hsp hinf'
  rw [strip_lowerL] at h2
  obtain ⟨p, hp, hwp⟩ :=
    splitSentAux_covers hne hsp (lowerL (strip t)) false [] (by simp) (by simpa using h2)
  have hmapped := splitSentAux_lowerL (strip t) false []
  rw [show lowerL [] = [] from rfl] at hmapped
  rw [hmapped] at hp
  obtain ⟨q, hq, rfl⟩ := List.mem_map.mp hp
  have h3 : w <:+: strip (lowerL q) := infix_strip_of_no_space hne hsp hwp
  rw [strip_lowerL] at h3
  refine ⟨strip q, ?_, h3⟩
  unfold get_sentences
  rw [List.mem_filter]
  constructor
  · exact List.mem_map.mpr ⟨q, hq, rfl⟩
  · have hne2 : lowerL (strip q) ≠ [] := by
      intro hnil
      rw [hnil] at h3
      exact hne (by simpa using h3)
    have : strip q ≠ [] := by
      intro hnil
      rw [hnil] at hne2
      exact hne2 rfl
    simpa using this

/-- Every sentence produced by the segmenter is a contiguous substring of the
input text. -/
theorem sentence_infix_text {t s : List Char} (hs : s ∈ get_sentences t) : s <:+: t := by
  unfold get_sentences at hs
  rw [List.mem_filter] at hs
  obtain ⟨hs1, _⟩ := hs
  obtain ⟨p, hp, rfl⟩ := List.mem_map.mp hs1
  have h1 := splitSentAux_infix (strip t) false [] (by simp) p hp
  simp only [List.reverse_nil, List.nil_append] at h1
  exact ((strip_infix_self p).trans h1).trans (strip_infix_self t)

/-! Per-pass structural lemmas. -/

theorem mem_passiveLoop :
    ∀ (l : List (List Char)) (n : Nat) (i : Issue), i ∈ passiveLoop n l →
      ∃ s ∈ l, i = mkPassiveIssue s ∧ passiveMatch s = true := by
  intro l
  induction l with
  | nil => intro n i hi; exact absurd hi (List.not_mem_nil i)
  | cons s rest ih =>
    intro n i hi
    rw [passiveLoop] at hi
    by_cases hm : passiveMatch s = true
    · rw [if_pos hm] at hi
      by_cases h2 : 2 ≤ n + 1
      · rw [if_pos h2] at hi
        rcases List.mem_singleton.mp hi with rfl
        exact ⟨s, List.mem_cons_self s rest, rfl, hm⟩
      · rw [if_neg h2] at hi
        rcases List.mem_cons.mp hi with rfl | hi'
        · exact ⟨s, List.mem_cons_self s rest, rfl, hm⟩
        · obtain ⟨s', hs', h⟩ := ih (n + 1) i hi'
          exact ⟨s', List.mem_cons_of_mem _ hs', h⟩
    · rw [if_neg hm] at hi
      obtain ⟨s', hs', h⟩ := ih n i hi
      exact ⟨s', List.mem_cons_of_mem _ hs', h⟩

theorem passiveLoop_length_le_one :
    ∀ (l : List (List Char)) (n : Nat), 1 ≤ n → (passiveLoop n l).length ≤ 1 := by
  intro l
  induction l with
  | nil => intro n _; simp [passiveLoop]
  | cons s rest ih =>
    intro n hn
    rw [passiveLoop]
    by_cases hm : passiveMatch s = true
    · rw [if_pos hm, if_pos (by omega : 2 ≤ n + 1)]
      simp
    · rw [if_neg hm]
      exact ih n hn

theorem passiveLoop_length_le_two (l : List (List Char)) :
    (passiveLoop 0 l).length ≤ 2 := by
  induction l with
  | nil => simp [passiveLoop]
  | cons s rest ih =>
    rw [passiveLoop]
    by_cases hm : passiveMatch s = true
    · rw [if_pos hm, if_neg (by omega : ¬ 2 ≤ 0 + 1)]
      have h1 := passiveLoop_length_le_one rest (0 + 1) (by omega)
      simp only [List.length_cons]
      omega
    · rw [if_neg hm]
      exact ih

theorem passiveLoop_count (s : List Char) :
    ∀ (l : List (List Char)) (n : Nat),
      ((passiveLoop n l).filter (fun i => i.original == s)).length ≤ l.count s := by
  intro l
  induction l with
  | nil => intro n; simp [passiveLoop]
  | cons s0 rest ih =>
    intro n
    rw [passiveLoop, List.count_cons]
    by_cases hm : passiveMatch s0 = true
    · rw [if_pos hm]
      by_cases h2 : 2 ≤ n + 1
      · rw [if_pos h2]
        by_cases hbe : (s0 == s) = true <;>
          simp [List.filter_cons, mkPassiveIssue, hbe]
      · rw [if_neg h2, List.filter_cons]
        have h1 := ih (n + 1)
        by_cases hbe : (s0 == s) = true <;> simp [mkPassiveIssue, hbe] <;> omega
    · rw [if_neg hm]
      have h1 := ih n
      by_cases hbe : (s0 == s) = true <;> simp [hbe] <;> omega

theorem mem_longIssues {l : List (List Char)} {i : Issue} (hi : i ∈ longIssues l) :
    ∃ s ∈ l, i = mkLongIssue (get_words s).length s ∧ 30 < (get_words s).length := by
  unfold longIssues at hi
  rw [List.mem_filterMap] at hi
  obtain ⟨s, hs, hmap⟩ := hi
  by_cases h30 : 30 < (get_words s).length
  · rw [if_pos h30] at hmap
    exact ⟨s, hs, (Option.some.inj hmap).symm, h30⟩
  · rw [if_neg h30] at hmap
    exact absurd hmap (by simp)

theorem longIssues_count (s : List Char) :
    ∀ (l : List (List Char)),
      ((longIssues l).filter (fun i => i.original == s)).length ≤ l.count s := by
  intro l
  induction l with
  | nil => simp [longIssues]
  | cons s0 rest ih =>
    rw [List.count_cons]
    by_cases h30 : 30 < (get_words s0).length
    · have heq : longIssues (s0 :: rest) = mkLongIssue (get_words s0).length s0 :: longIssues rest := by
        unfold longIssues
        rw [List.filterMap_cons, if_pos h30]
      rw [heq, List.filter_cons]
      by_cases hbe : (s0 == s) = true <;> simp [mkLongIssue, hbe] <;> omega
    · have heq : longIssues (s0 :: rest) = longIssues rest := by
        unfold longIssues
        rw [List.filterMap_cons, if_neg h30]
      rw [heq]
      by_cases hbe : (s0 == s) = true <;> simp [hbe] <;> omega

theorem mem_wordyIssues {l : List (List Char)} {i : Issue} (hi : i ∈ wordyIssues l) :
    ∃ p r, (p, r) ∈ WORDY_PHRASES ∧ ∃ s ∈ l, i = mkWordyIssue p r s ∧
      containsSub (lowerL p.toList) (lowerL s) = true := by
  unfold wordyIssues at hi
  rw [List.mem_filterMap] at hi
  obtain ⟨pr, hpr, hmap⟩ := hi
  cases hfind : l.find? (fun s => containsSub (lowerL pr.1.toList) (lowerL s)) with
  | none =>
    rw [hfind] at hmap
    exact absurd hmap (by simp)
  | some s =>
    rw [hfind] at hmap
    simp only [Option.map] at hmap
    have hps := List.find?_some hfind
    have hsmem := List.mem_of_find?_eq_some hfind
    refine ⟨pr.1, pr.2, by rw [Prod.mk.eta]; exact hpr, s, hsmem, (Option.some.inj hmap).symm, hps⟩

theorem wordyIssues_length_le (l : List (List Char)) :
    (wordyIssues l).length ≤ WORDY_PHRASES.length :=
  List.length_filterMap_le _ _

theorem mem_complexLoop :
    ∀ (l : List (List Char)) (found : List String) (i : Issue), i ∈ complexLoop found l →
      ∃ w r s, (w, r) ∈ COMPLEX_WORDS ∧ s ∈ l ∧ i = mkComplexIssue w r s ∧
        containsSub w.toList (lowerL s) = true := by
  intro l
  induction l with
  | nil => intro found i hi; exact absurd hi (List.not_mem_nil i)
  | cons s0 rest ih =>
    intro found i hi
    rw [complexLoop] at hi
    split at hi
    · rename_i wr hfind
      rcases List.mem_cons.mp hi with rfl | hi'
      · have hps := List.find?_some hfind
        simp only [Bool.and_eq_true] at hps
        have hmem := List.mem_of_find?_eq_some hfind
        exact ⟨wr.1, wr.2, s0, by rw [Prod.mk.eta]; exact hmem,
          List.mem_cons_self _ _, rfl, hps.1⟩
      · obtain ⟨w, r, s, h1, h2, h3, h4⟩ := ih (wr.1 :: found) i hi'
        exact ⟨w, r, s, h1, List.mem_cons_of_mem _ h2, h3, h4⟩
    · obtain ⟨w, r, s, h1, h2, h3, h4⟩ := ih found i hi
      exact ⟨w, r, s, h1, List.mem_cons_of_mem _ h2, h3, h4⟩

theorem complexLoop_count (s : List Char) :
    ∀ (l : List (List Char)) (found : List String),
      ((complexLoop found l).filter (fun i => i.original == s)).length ≤ l.count s := by
  intro l
  induction l with
  | nil => intro found; simp [complexLoop]
  | cons s0 rest ih =>
    intro found
    rw [complexLoop, List.count_cons]
    split
    · rename_i wr hfind
      rw [List.filter_cons]
      have h1 := ih (wr.1 :: found)
      by_cases hbe : (s0 == s) = true <;> simp [mkComplexIssue, hbe] <;> omega
    · have h1 := ih found
      by_cases hbe : (s0 == s) = true <;> simp [hbe] <;> omega

theorem mem_weakIssues {sentences words : List (List Char)} {i : Issue}
    (hi : i ∈ weakIssues sentences words) :
    ∃ s ∈ sentences, i = mkWeakIssue s ∧ sentenceHasWeak s = true := by
  unfold weakIssues at hi
  by_cases hc : 2 < weakTokenCount words
  · rw [if_pos hc] at hi
    cases hfind : sentences.find? sentenceHasWeak with
    | none => rw [hfind] at hi; exact absurd hi (List.not_mem_nil i)
    | some s =>
      rw [hfind] at hi
      rcases List.mem_singleton.mp hi with rfl
      exact ⟨s, List.mem_of_find?_eq_some hfind, rfl, List.find?_some hfind⟩
  · rw [if_neg hc] at hi
    exact absurd hi (List.not_mem_nil i)

theorem weakIssues_length_le (sentences words : List (List Char)) :
    (weakIssues sentences words).length ≤ 1 := by
  unfold weakIssues
  by_cases hc : 2 < weakTokenCount words
  · rw [if_pos hc]
    cases hfind : sentences.find? sentenceHasWeak <;> simp
  · rw [if_neg hc]
    simp

theorem hedgingLoop_length_le (sentences : List (List Char)) :
    ∀ (hs : List String), (hedgingLoop sentences hs).length ≤ 1 := by
  intro hs
  induction hs with
  | nil => simp [hedgingLoop]
  | cons h0 rest ih =>
    rw [hedgingLoop]
    split
    · simp
    · exact ih

theorem mem_hedgingLoop {sentences : List (List Char)} :
    ∀ (hs : List String) (i : Issue), i ∈ hedgingLoop sentences hs →
      ∃ h s, h ∈ hs ∧ s ∈ sentences ∧ i = mkHedgingIssue h s := by
  intro hs
  induction hs with
  | nil => intro i hi; exact absurd hi (List.not_mem_nil i)
  | cons h0 rest ih =>
    intro i hi
    rw [hedgingLoop] at hi
    split at hi
    · rename_i s hfind
      rcases List.mem_singleton.mp hi with rfl
      exact ⟨h0, s, List.mem_cons_self _ _, List.mem_of_find?_eq_some hfind, rfl⟩
    · obtain ⟨h, s, h1, h2, h3⟩ := ih i hi
      exact ⟨h, s, List.mem_cons_of_mem _ h1, h2, h3⟩

theorem hedgingLoop_spec {sentences : List (List Char)} :
    ∀ (hs : List String) (i : Issue), i ∈ hedgingLoop sentences hs →
      ∃ h hpre hpost, hs = hpre ++ h :: hpost ∧
        (∀ h' ∈ hpre, ∀ s ∈ sentences, containsSub (lowerL h'.toList) (lowerL s) = false) ∧
        ∃ spre spost, sentences = spre ++ i.original :: spost ∧
          containsSub (lowerL h.toList) (lowerL i.original) = true ∧
          (∀ s ∈ spre, containsSub (lowerL h.toList) (lowerL s) = false) ∧
          i = mkHedgingIssue h i.original := by
  intro hs
  induction hs with
  | nil => intro i hi; exact absurd hi (List.not_mem_nil i)
  | cons h0 rest ih =>
    intro i hi
    rw [hedgingLoop] at hi
    split at hi
    · rename_i s hfind
      rcases List.mem_singleton.mp hi with rfl
      obtain ⟨hps, as, bs, hsent, hforall⟩ := List.find?_eq_some.mp hfind
      refine ⟨h0, [], rest, rfl, by simp, as, bs, ?_, ?_, ?_, rfl⟩
      · simpa [mkHedgingIssue] using hsent
      · simpa [mkHedgingIssue] using hps
      · intro s' hs'
        have h1 := hforall s' hs'
        simpa using h1
    · rename_i hfind
      obtain ⟨h, hpre, hpost, hhs, hnone, hrest⟩ := ih i hi
      refine ⟨h, h0 :: hpre, hpost, by rw [hhs]; rfl, ?_, hrest⟩
      intro h' hh' s hsmem
      rcases List.mem_cons.mp hh' with rfl | hh''
      · have h1 := List.find?_eq_none.mp hfind s hsmem
        simpa using h1
      · exact hnone h' hh'' s hsmem

theorem mem_weakIssues_spec {sentences words : List (List Char)} {i : Issue}
    (hi : i ∈ weakIssues sentences words) :
    ∃ spre spost, sentences = spre ++ i.original :: spost ∧
      sentenceHasWeak i.original = true ∧ (∀ s ∈ spre, sentenceHasWeak s = false) ∧
      i = mkWeakIssue i.original := by
  unfold weakIssues at hi
  by_cases hc : 2 < weakTokenCount words
  · rw [if_pos hc] at hi
    cases hfind : sentences.find? sentenceHasWeak with
    | none => rw [hfind] at hi; exact absurd hi (List.not_mem_nil i)
    | some s =>
      rw [hfind] at hi
      rcases List.mem_singleton.mp hi with rfl
      obtain ⟨hps, as, bs, hsent, hforall⟩ := List.find?_eq_some.mp hfind
      refine ⟨as, bs, ?_, ?_, ?_, rfl⟩
      · simpa [mkWeakIssue] using hsent
      · simpa [mkWeakIssue] using hps
      · intro s' hs'
        have h1 := hforall s' hs'
        simpa using h1
  · rw [if_neg hc] at hi
    exact absurd hi (List.not_mem_nil i)

theorem weakTokenCount_pos_sentence {t : List Char}
    (h : 0 < weakTokenCount (get_words t)) :
    ∃ s ∈ get_sentences t, sentenceHasWeak s = true := by
  unfold weakTokenCount at h
  have hne : (get_words t).filter (fun w => WEAK_WORDS.any (fun x => x.toList == w)) ≠ [] := by
    intro hnil
    rw [hnil] at h
    simp at h
  obtain ⟨w, hw⟩ := List.exists_mem_of_ne_nil _ hne
  rw [List.mem_filter] at hw
  obtain ⟨hwmem, hwpred⟩ := hw
  obtain ⟨s, hsmem, hinf⟩ := token_in_sentence hwmem
  refine ⟨s, hsmem, ?_⟩
  unfold sentenceHasWeak
  rw [List.any_eq_true]
  rw [List.any_eq_true] at hwpred
  obtain ⟨x, hx, hbeq⟩ := hwpred
  have hxw : x.toList = w := by simpa using hbeq
  refine ⟨x, hx, ?_⟩
  rw [containsSub_iff, hxw]
  exact hinf

theorem weakIssues_ne_nil_iff (t : List Char) :
    weakIssues (get_sentences t) (get_words t) ≠ [] ↔
      2 < weakTokenCount (get_words t) := by
  constructor
  · intro h
    by_contra hc
    apply h
    unfold weakIssues
    rw [if_neg hc]
  · intro hc
    obtain ⟨s, hsmem, hsw⟩ :=
      weakTokenCount_pos_sentence (show 0 < weakTokenCount (get_words t) by omega)
    unfold weakIssues
    rw [if_pos hc]
    cases hfind : (get_sentences t).find? sentenceHasWeak with
    | none =>
      have h1 := List.find?_eq_none.mp hfind s hsmem
      rw [hsw] at h1
      exact absurd rfl h1
    | some s' => simp

theorem replaceWordCIAux_eq_self {pat rep : List Char} :
    ∀ (fuel : Nat) (b : Bool) (l : List Char), hasWordOcc pat b l = false →
      replaceWordCIAux pat rep fuel b l = l := by
  intro fuel
  induction fuel with
  | zero => intro b l _; cases l <;> rfl
  | succ fuel ih =>
    intro b l h
    cases l with
    | nil => rfl
    | cons c rest =>
      rw [hasWordOcc] at h
      rw [replaceWordCIAux]
      by_cases hc : (b = true ∧ pat ≠ [] ∧ lowerL ((c :: rest).take pat.length) = pat ∧
          boundaryAfter ((c :: rest).drop pat.length) = true)
      · rw [if_pos hc] at h
        exact absurd h (by simp)
      · rw [if_neg hc] at h
        rw [if_neg hc, ih _ _ h]

theorem replaceWordCI_eq_self {pat rep s : List Char}
    (h : hasWordOcc pat true s = false) : replaceWordCI pat rep true s = s :=
  replaceWordCIAux_eq_self _ _ _ h

theorem score_term_bounds (n : Nat) : 5 ≤ max 5 (10 - 2 * n) ∧ max 5 (10 - 2 * n) ≤ 10 :=
  ⟨Nat.le_max_left _ _, Nat.max_le.mpr ⟨by omega, by omega⟩⟩

theorem roundHalfEven_four_bounds {n : Nat} (h1 : 20 ≤ n) (h2 : n ≤ 40) :
    5 ≤ roundHalfEven n 4 ∧ roundHalfEven n 4 ≤ 10 := by
  simp only [roundHalfEven]
  constructor <;> (repeat' split) <;> omega

/-- Unfolded form of `analyze_text`: the let-bindings of the source spelled
out.  Holds by definitional unfolding. -/
theorem analyze_text_def (t : List Char) :
    analyze_text t =
      { issues := (detect_issues (get_sentences t) (get_words t)).take 8
        scores :=
          { clarity := max 5 (10 - 2 * categoryCount Category.Clarity
                (detect_issues (get_sentences t) (get_words t)))
            style := max 5 (10 - 2 * categoryCount Category.Style
                (detect_issues (get_sentences t) (get_words t)))
            conciseness := max 5 (10 - 2 * categoryCount Category.Conciseness
                (detect_issues (get_sentences t) (get_words t)))
            tone := max 5 (10 - 2 * categoryCount Category.Tone
                (detect_issues (get_sentences t) (get_words t)))
            overall := roundHalfEven
                (max 5 (10 - 2 * categoryCount Category.Clarity
                    (detect_issues (get_sentences t) (get_words t)))
                  + max 5 (10 - 2 * categoryCount Category.Style
                    (detect_issues (get_sentences t) (get_words t)))
                  + max 5 (10 - 2 * categoryCount Category.Conciseness
                    (detect_issues (get_sentences t) (get_words t)))
                  + max 5 (10 - 2 * categoryCount Category.Tone
                    (detect_issues (get_sentences t) (get_words t)))) 4 }
        stats :=
          { words := (get_words t).length
            sentences := (get_sentences t).length
            avg_length_tenths := pyRoundQuotTenths (get_words t).length
                (max (get_sentences t).length 1) } } := rfl

/-! Claim theorems. -/

/-- Claim C1, counterexample: on the input "The cake was eaten." the analyzer
returns no issues at all - in particular no passive-voice issue - because
"eaten" does not end in the letters e, d, so the passive-voice pattern does
not match "was eaten". -/
theorem claim_C1_counterexample :
    (analyze_text ("The cake was eaten.".toList)).issues = [] := by decide

/-- Claim C1, amended: the input "The cake was eaten." yields no issues (the
passive-voice heuristic requires the word after the auxiliary to end in
"ed", and "eaten" ends in "en"), while an input with a regular participle,
"The cake was baked.", yields exactly one passive-voice issue whose original
is that sentence. -/
theorem claim_C1 :
    (analyze_text ("The cake was eaten.".toList)).issues = [] ∧
    passiveMatch ("The cake was eaten.".toList) = false ∧
    ((analyze_text ("The cake was baked.".toList)).issues.filter
        (fun i => i.type == IType.passive_voice)).map (fun i => i.original)
      = [("The cake was baked.".toList)] := by
  refine ⟨by decide, by decide, by decide⟩

/-- Claim C2, counterexample: the one-sentence input
"In order to make a decision." receives two wordy-typed issues on the same
sentence in the same (wordy) pass, one for "in order to" and one for
"make a decision", so a pass can produce more than one issue of a type for a
sentence. -/
theorem claim_C2_counterexample :
    get_sentences ("In order to make a decision.".toList)
        = [("In order to make a decision.".toList)] ∧
    ((analyze_text ("In order to make a decision.".toList)).issues.filter
        (fun i => i.type == IType.wordy &&
          i.original == ("In order to make a decision.".toList))).length = 2 := by
  refine ⟨by decide, by decide⟩

/-- Claim C2, amended: within one detection pass, the passive, long-sentence
and complex-words passes produce at most one issue per occurrence of a
sentence, and the weak-words and hedging passes produce at most one issue in
total; the wordy pass is instead bounded by one issue per catalog phrase,
and may flag one sentence several times (once per distinct phrase in it). -/
theorem claim_C2 (t : List Char) (s : List Char) :
    ((passiveLoop 0 (get_sentences t)).filter (fun i => i.original == s)).length
        ≤ (get_sentences t).count s ∧
    ((longIssues (get_sentences t)).filter (fun i => i.original == s)).length
        ≤ (get_sentences t).count s ∧
    ((complexLoop [] (get_sentences t)).filter (fun i => i.original == s)).length
        ≤ (get_sentences t).count s ∧
    (weakIssues (get_sentences t) (get_words t)).length ≤ 1 ∧
    (hedgingIssues (get_sentences t)).length ≤ 1 ∧
    (wordyIssues (get_sentences t)).length ≤ WORDY_PHRASES.length :=
  ⟨passiveLoop_count s _ 0, longIssues_count s _, complexLoop_count s _ [],
    weakIssues_length_le _ _, hedgingLoop_length_le _ _, wordyIssues_length_le _⟩

/-- Claim C3, counterexample: in "Perhaps yes. It maybe works." the first
sentence containing a hedge is "Perhaps yes." (it contains "perhaps"), but
the single hedging issue is for "It maybe works.", because the pass scans
hedges in catalog order first and "maybe" precedes "perhaps" in the catalog. -/
theorem claim_C3_counterexample :
    get_sentences ("Perhaps yes. It maybe works.".toList)
        = [("Perhaps yes.".toList), ("It maybe works.".toList)] ∧
    ("perhaps" ∈ HEDGING_WORDS) ∧
    containsSub (lowerL ("perhaps".toList)) (lowerL ("Perhaps yes.".toList)) = true ∧
    ((analyze_text ("Perhaps yes. It maybe works.".toList)).issues.map
        (fun i => i.original)) = [("It maybe works.".toList)] := by
  refine ⟨by decide, by decide, by decide, by decide⟩

/-- Claim C3, amended: the hedging pass produces at most one issue; that
issue corresponds to the first hedge phrase in catalog order that occurs
(case-insensitively) in any sentence, and its original is the first sentence
in text order containing that particular phrase. -/
theorem claim_C3 (t : List Char) :
    (hedgingIssues (get_sentences t)).length ≤ 1 ∧
    ∀ i ∈ hedgingIssues (get_sentences t), HedgingIssueSpec (get_sentences t) i := by
  refine ⟨hedgingLoop_length_le _ _, ?_⟩
  intro i hi
  exact hedgingLoop_spec HEDGING_WORDS i hi

/-- Claim C3, witness: the amended theorem applied to the concrete input
"Maybe so.", whose hedging issue flags "maybe" in the only sentence. -/
theorem claim_C3_witness :
    HedgingIssueSpec (get_sentences ("Maybe so.".toList))
      (mkHedgingIssue "maybe" ("Maybe so.".toList)) :=
  (claim_C3 ("Maybe so.".toList)).2 (mkHedgingIssue "maybe" ("Maybe so.".toList)) (by decide)

/-- Claim C4, counterexample: for "In order to succeed, you must work hard."
the single issue is a wordy issue whose fallback is
"to succeed, you must work hard." with a lower-case "to": the substitution
inserts the replacement verbatim and does not preserve the original
capitalisation, so the fallback claimed by the spec (capital "To") is wrong. -/
theorem claim_C4_counterexample :
    (analyze_text ("In order to succeed, you must work hard.".toList)).issues.map
        (fun i => (i.type, i.fallback))
      = [(IType.wordy, some ("to succeed, you must work hard.".toList))] := by decide

/-- Claim C4, amended: the input "In order to succeed, you must work hard."
produces exactly the wordy issue for "in order to", and its fallback equals
"to succeed, you must work hard." (replacement inserted verbatim, in lower
case). -/
theorem claim_C4 :
    (analyze_text ("In order to succeed, you must work hard.".toList)).issues
      = [mkWordyIssue "in order to" "to" ("In order to succeed, you must work hard.".toList)] ∧
    (mkWordyIssue "in order to" "to" ("In order to succeed, you must work hard.".toList)).fallback
      = some ("to succeed, you must work hard.".toList) := by
  refine ⟨by decide, by decide⟩

/-- Claim C5: every category score equals `max 5 (10 - 2 * count)` where the
count ranges over the full detected issue list of the corresponding category,
hence lies between 5 and 10; and the overall score is the half-to-even
rounded mean of the four category scores, hence also lies between 5 and 10. -/
theorem claim_C5 (t : List Char) :
    (analyze_text t).scores.clarity
        = max 5 (10 - 2 * categoryCount Category.Clarity
            (detect_issues (get_sentences t) (get_words t))) ∧
    (analyze_text t).scores.style
        = max 5 (10 - 2 * categoryCount Category.Style
            (detect_issues (get_sentences t) (get_words t))) ∧
    (analyze_text t).scores.conciseness
        = max 5 (10 - 2 * categoryCount Category.Conciseness
            (detect_issues (get_sentences t) (get_words t))) ∧
    (analyze_text t).scores.tone
        = max 5 (10 - 2 * categoryCount Category.Tone
            (detect_issues (get_sentences t) (get_words t))) ∧
    (5 ≤ (analyze_text t).scores.clarity ∧ (analyze_text t).scores.clarity ≤ 10) ∧
    (5 ≤ (analyze_text t).scores.style ∧ (analyze_text t).scores.style ≤ 10) ∧
    (5 ≤ (analyze_text t).scores.conciseness ∧ (analyze_text t).scores.conciseness ≤ 10) ∧
    (5 ≤ (analyze_text t).scores.tone ∧ (analyze_text t).scores.tone ≤ 10) ∧
    (analyze_text t).scores.overall
        = roundHalfEven ((analyze_text t).scores.clarity + (analyze_text t).scores.style
            + (analyze_text t).scores.conciseness + (analyze_text t).scores.tone) 4 ∧
    (5 ≤ (analyze_text t).scores.overall ∧ (analyze_text t).scores.overall ≤ 10) := by
  have hcl := score_term_bounds (categoryCount Category.Clarity
    (detect_issues (get_sentences t) (get_words t)))
  have hst := score_term_bounds (categoryCount Category.Style
    (detect_issues (get_sentences t) (get_words t)))
  have hco := score_term_bounds (categoryCount Category.Conciseness
    (detect_issues (get_sentences t) (get_words t)))
  have hto := score_term_bounds (categoryCount Category.Tone
    (detect_issues (get_sentences t) (get_words t)))
  rw [analyze_text_def]
  dsimp only
  refine ⟨rfl, rfl, rfl, rfl, hcl, hst, hco, hto, rfl, ?_⟩
  exact roundHalfEven_four_bounds (by omega) (by omega)

/-- Claim C6: the weak-word pass fires exactly when the text has more than
two weak word tokens; it then produces a single issue whose original is the
first sentence (top to bottom) containing some weak word as a substring of
its lower-casing. -/
theorem claim_C6 (t : List Char) :
    (weakIssues (get_sentences t) (get_words t) ≠ [] ↔
      2 < weakTokenCount (get_words t)) ∧
    (weakIssues (get_sentences t) (get_words t)).length ≤ 1 ∧
    ∀ i ∈ weakIssues (get_sentences t) (get_words t),
      ∃ spre spost, get_sentences t = spre ++ i.original :: spost ∧
        sentenceHasWeak i.original = true ∧ (∀ s ∈ spre, sentenceHasWeak s = false) ∧
        i = mkWeakIssue i.original :=
  ⟨weakIssues_ne_nil_iff t, weakIssues_length_le _ _, fun _ hi => mem_weakIssues_spec hi⟩

/-- Claim C6, witness: the theorem applied to "Very really actually good.",
which has three weak word tokens and so fires the pass. -/
theorem claim_C6_witness :
    weakIssues (get_sentences ("Very really actually good.".toList))
      (get_words ("Very really actually good.".toList)) ≠ [] :=
  (claim_C6 ("Very really actually good.".toList)).1.mpr (by decide)

/-- Claim C7: the report keeps exactly the first eight issues of the full
detection list (a prefix, in pass order), so at most eight issues are
returned, while the statistics (word count, sentence count, and the
average words per sentence in tenths, with zero sentences treated as one)
come from the full, untruncated word and sentence lists. -/
theorem claim_C7 (t : List Char) :
    (analyze_text t).issues = (detect_issues (get_sentences t) (get_words t)).take 8 ∧
    (analyze_text t).issues.length ≤ 8 ∧
    (analyze_text t).issues <+: detect_issues (get_sentences t) (get_words t) ∧
    (analyze_text t).stats.words = (get_words t).length ∧
    (analyze_text t).stats.sentences = (get_sentences t).length ∧
    (analyze_text t).stats.avg_length_tenths
      = pyRoundQuotTenths (get_words t).length (max (get_sentences t).length 1) := by
  refine ⟨rfl, ?_, ?_, rfl, rfl, rfl⟩
  · show ((detect_issues (get_sentences t) (get_words t)).take 8).length ≤ 8
    rw [List.length_take]
    exact Nat.min_le_left _ _
  · exact ⟨(detect_issues (get_sentences t) (get_words t)).drop 8,
      List.take_append_drop 8 _⟩

/-- Claim C8: the passive-voice pass produces at most two issues in total
for the whole text, and consequently the full detection list never holds
more than two passive-voice-typed issues. -/
theorem claim_C8 (t : List Char) :
    (passiveLoop 0 (get_sentences t)).length ≤ 2 ∧
    ((detect_issues (get_sentences t) (get_words t)).filter
      (fun i => i.type == IType.passive_voice)).length ≤ 2 := by
  refine ⟨passiveLoop_length_le_two _, ?_⟩
  have h1 : ((passiveLoop 0 (get_sentences t)).filter
      (fun i => i.type == IType.passive_voice)).length ≤ 2 :=
    le_trans (List.length_filter_le _ _) (passiveLoop_length_le_two _)
  have h2 : (longIssues (get_sentences t)).filter
      (fun i => i.type == IType.passive_voice) = [] := by
    rw [List.filter_eq_nil_iff]
    intro i hi
    obtain ⟨s, _, rfl, _⟩ := mem_longIssues hi
    simp [mkLongIssue]
  have h3 : (wordyIssues (get_sentences t)).filter
      (fun i => i.type == IType.passive_voice) = [] := by
    rw [List.filter_eq_nil_iff]
    intro i hi
    obtain ⟨p, r, _, s, _, rfl, _⟩ := mem_wordyIssues hi
    simp [mkWordyIssue]
  have h4 : (complexLoop [] (get_sentences t)).filter
      (fun i => i.type == IType.passive_voice) = [] := by
    rw [List.filter_eq_nil_iff]
    intro i hi
    obtain ⟨w, r, s, _, _, rfl, _⟩ := mem_complexLoop _ _ _ hi
    simp [mkComplexIssue]
  have h5 : (weakIssues (get_sentences t) (get_words t)).filter
      (fun i => i.type == IType.passive_voice) = [] := by
    rw [List.filter_eq_nil_iff]
    intro i hi
    obtain ⟨s, _, rfl, _⟩ := mem_weakIssues hi
    simp [mkWeakIssue]
  have h6 : (hedgingIssues (get_sentences t)).filter
      (fun i => i.type == IType.passive_voice) = [] := by
    rw [List.filter_eq_nil_iff]
    intro i hi
    obtain ⟨h, s, _, _, rfl⟩ := mem_hedgingLoop _ i hi
    simp [mkHedgingIssue]
  unfold detect_issues
  simp only [List.filter_append, h2, h3, h4, h5, h6, List.append_nil, List.length_append,
    List.length_nil]
  omega

/-- Claim C9, counterexample: in
"We facilitated it. We facilitated it again." the second sentence contains
the catalog word "facilitate" embedded in "facilitated", yet no issue is
produced for that sentence - the word was already flagged on the first
sentence - so the claim's "for every sentence" quantification fails. -/
theorem claim_C9_counterexample :
    get_sentences ("We facilitated it. We facilitated it again.".toList)
        = [("We facilitated it.".toList), ("We facilitated it again.".toList)] ∧
    containsSub ("facilitate".toList) (lowerL ("We facilitated it again.".toList)) = true ∧
    ((analyze_text ("We facilitated it. We facilitated it again.".toList)).issues.filter
      (fun i => i.original == ("We facilitated it again.".toList))) = [] := by
  refine ⟨by decide, by decide, by decide⟩

/-- Claim C9, amended: whenever the complex-words pass emits an issue, the
flagged catalog word occurs in the sentence by unanchored case-insensitive
substring containment, the fallback is the word-boundary-anchored
substitution, and if the word has no boundary-anchored occurrence in the
sentence the fallback equals the original sentence unchanged. -/
theorem claim_C9 (found : List String) (l : List (List Char)) (i : Issue)
    (hi : i ∈ complexLoop found l) : ComplexIssueSpec i := by
  obtain ⟨w, r, s, hwr, _, rfl, hcont⟩ := mem_complexLoop l found i hi
  refine ⟨w, r, hwr, by simpa [mkComplexIssue] using hcont, rfl, ?_⟩
  intro hno
  have hno' : hasWordOcc w.toList true s = false := by simpa [mkComplexIssue] using hno
  show some (replaceWordCI w.toList r.toList true s) = some s
  rw [replaceWordCI_eq_self hno']

/-- Claim C9, witness: the theorem applied to the sentence
"We facilitated the process.", where "facilitate" is detected inside
"facilitated" but the anchored substitution leaves the sentence unchanged. -/
theorem claim_C9_witness :
    ComplexIssueSpec (mkComplexIssue "facilitate" "help"
      ("We facilitated the process.".toList)) :=
  claim_C9 [] [("We facilitated the process.".toList)]
    (mkComplexIssue "facilitate" "help" ("We facilitated the process.".toList)) (by decide)

/-- Claim C10: every issue of the returned report carries as its original one
of the sentences the segmenter produces for the text, which is in turn a
contiguous substring of the input text. -/
theorem claim_C10 (t : List Char) (i : Issue) (hi : i ∈ (analyze_text t).issues) :
    i.original ∈ get_sentences t ∧ i.original <:+: t := by
  have hi' : i ∈ detect_issues (get_sentences t) (get_words t) := by
    have heq : (analyze_text t).issues
        = (detect_issues (get_sentences t) (get_words t)).take 8 := rfl
    rw [heq] at hi
    exact List.take_subset _ _ hi
  have hmem : i.original ∈ get_sentences t := by
    unfold detect_issues at hi'
    simp only [List.mem_append] at hi'
    rcases hi' with ((((h1 | h2) | h3) | h4) | h5) | h6
    · obtain ⟨s, hs, rfl, _⟩ := mem_passiveLoop _ _ _ h1
      simpa [mkPassiveIssue] using hs
    · obtain ⟨s, hs, rfl, _⟩ := mem_longIssues h2
      simpa [mkLongIssue] using hs
    · obtain ⟨p, r, _, s, hs, rfl, _⟩ := mem_wordyIssues h3
      simpa [mkWordyIssue] using hs
    · obtain ⟨w, r, s, _, hs, rfl, _⟩ := mem_complexLoop _ _ _ h4
      simpa [mkComplexIssue] using hs
    · obtain ⟨s, hs, rfl, _⟩ := mem_weakIssues h5
      simpa [mkWeakIssue] using hs
    · obtain ⟨h, s, _, hs, rfl⟩ := mem_hedgingLoop _ i h6
      simpa [mkHedgingIssue] using hs
  exact ⟨hmem, sentence_infix_text hmem⟩

/-- Claim C10, witness: the theorem applied to "Maybe so." and its hedging
issue. -/
theorem claim_C10_witness :
    (mkHedgingIssue "maybe" ("Maybe so.".toList)).original
        ∈ get_sentences ("Maybe so.".toList) ∧
      (mkHedgingIssue "maybe" ("Maybe so.".toList)).original <:+: ("Maybe so.".toList) :=
  claim_C10 ("Maybe so.".toList) (mkHedgingIssue "maybe" ("Maybe so.".toList)) (by decide)

end WritingAssistant
